import Mathlib

/-
Verification of the text2vert converter (src/text2vert/converter.py).

Texts and tokens are modelled as `List Char`.  The converter reads files
decoded as iso-8859-1, so every character is a single Latin-1 code point,
faithfully represented by `Char`.
-/

namespace Text2Vert

/-- Membership in Python's `string.punctuation`, the fixed set
`_PUNCTUATION_CHARS` of the source.  That string holds exactly the ASCII
characters with codes 33-47, 58-64, 91-96 and 123-126. -/
def isPunct (c : Char) : Bool :=
  (33 ≤ c.toNat && c.toNat ≤ 47) || (58 ≤ c.toNat && c.toNat ≤ 64) ||
  (91 ≤ c.toNat && c.toNat ≤ 96) || (123 ≤ c.toNat && c.toNat ≤ 126)

/-- The whitespace class of Python's `str.split()` restricted to Latin-1
text (the files are decoded as iso-8859-1): tab (9), line feed (10),
vertical tab (11), form feed (12), carriage return (13), the file,
group, record and unit separators (28-31), space (32), next line (133)
and no-break space (160). -/
def isPySpace (c : Char) : Bool :=
  c.toNat = 9 || c.toNat = 10 || c.toNat = 11 || c.toNat = 12 ||
  c.toNat = 13 || (28 ≤ c.toNat && c.toNat ≤ 31) || c.toNat = 32 ||
  c.toNat = 133 || c.toNat = 160

/-- Helper for `splitWs`: `acc` is the (possibly empty) run of
non-whitespace characters read since the last emitted word. -/
def splitWsAux : List Char → List Char → List (List Char)
  | [], acc => if acc.isEmpty then [] else [acc]
  | c :: cs, acc =>
    if isPySpace c then
      if acc.isEmpty then splitWsAux cs [] else acc :: splitWsAux cs []
    else
      splitWsAux cs (acc ++ [c])

/-- Python's `raw_text.split()` (no separator argument): split on runs of
whitespace, discarding empty pieces. -/
def splitWs (t : List Char) : List (List Char) := splitWsAux t []

/-- Helper for `_split_word`: `pending` is `word[last_cut_i:i]`, the
characters read since the last cut.  On a punctuation character the code
appends `word[last_cut_i:i] + "\n"` unconditionally (also when empty),
then the punctuation character with `"\n"`; after the loop the tail
`word[last_cut_i:]` is appended only if non-empty
(`last_cut_i < len(word)`). -/
def splitWordAux : List Char → List Char → List (List Char)
  | [], pending => if pending.isEmpty then [] else [pending ++ [Char.ofNat 10]]
  | c :: cs, pending =>
    if isPunct c then
      (pending ++ [Char.ofNat 10]) :: ([c] ++ [Char.ofNat 10]) :: splitWordAux cs []
    else
      splitWordAux cs (pending ++ [c])

/-- Embeds `_split_word` of the source: each returned entry is one output
line and carries the trailing `"\n"` the code appends. -/
def split_word (word : List Char) : List (List Char) := splitWordAux word []

/-- Embeds `_convert_text_to_vert`: one document per raw text, a document
being the concatenation (`one_doc.extend`) of the word splits of the
whitespace-separated words of the text. -/
def convert_text_to_vert (raw_texts : List (List Char)) : List (List (List Char)) :=
  raw_texts.map (fun raw_text => ((splitWs raw_text).map split_word).flatten)

/-- The token sequence of one raw text: the line contents produced by the
converter, i.e. each `_split_word` entry without the terminating newline
the code appends to every output line. -/
def tokenize (t : List Char) : List (List Char) :=
  (((splitWs t).map split_word).flatten).map List.dropLast

/-- Newline-free companion of `splitWordAux`: same entries, without the
appended `"\n"`.  Used to reason about line contents. -/
def splitWordCore : List Char → List Char → List (List Char)
  | [], pending => if pending.isEmpty then [] else [pending]
  | c :: cs, pending =>
    if isPunct c then
      pending :: [c] :: splitWordCore cs []
    else
      splitWordCore cs (pending ++ [c])

theorem splitWordAux_eq_core_map (cs : List Char) :
    ∀ pending, splitWordAux cs pending =
      (splitWordCore cs pending).map (fun s => s ++ [Char.ofNat 10]) := by
  induction cs with
  | nil =>
    intro pending
    simp only [splitWordAux, splitWordCore]
    by_cases h : pending.isEmpty <;> simp [h]
  | cons c cs ih =>
    intro pending
    simp only [splitWordAux, splitWordCore]
    by_cases h : isPunct c <;> simp [h, ih]

theorem split_word_tokens (w : List Char) :
    (split_word w).map List.dropLast = splitWordCore w [] := by
  simp only [split_word, splitWordAux_eq_core_map, List.map_map]
  have : (List.dropLast ∘ fun s => s ++ [Char.ofNat 10]) = id := by
    funext s
    simp [List.dropLast_concat]
  simp [this]

theorem tokenize_eq_core (t : List Char) :
    tokenize t = ((splitWs t).map (fun w => splitWordCore w [])).flatten := by
  simp only [tokenize, List.map_flatten, List.map_map]
  congr 1
  apply List.map_congr_left
  intro w _
  exact split_word_tokens w

/-- Claim C7: `tokenize "Hello, world!"` is exactly
`["Hello", ",", "world", "!"]`, and `tokenize ""` is the empty token
sequence (an empty document, not an error). -/
theorem C7_tokenize_examples :
    tokenize ("Hello, world!".toList) =
      ["Hello".toList, ",".toList, "world".toList, "!".toList] ∧
    tokenize ("".toList) = [] := by
  constructor <;> rfl

theorem isPunct_not_pySpace {c : Char} (h : isPunct c = true) : isPySpace c = false := by
  simp only [isPunct, Bool.or_eq_true, Bool.and_eq_true, decide_eq_true_eq] at h
  rw [Bool.eq_false_iff]
  intro hs
  simp only [isPySpace, Bool.or_eq_true, Bool.and_eq_true, decide_eq_true_eq] at hs
  omega

/-- Claim C1, counterexample: for the single punctuation character `!`, the
code emits an empty word-token before the punctuation token, so
`tokenize "!"` is `["", "!"]`, not `["!"]`: the word-token before a
punctuation character is appended even when empty. -/
theorem C1_counterexample :
    tokenize ("!".toList) = [[], "!".toList] ∧
    tokenize ("!".toList) ≠ ["!".toList] := by
  constructor
  · rfl
  · decide

theorem splitWsAux_no_space_eq (cs : List Char) :
    ∀ acc, (∀ c ∈ cs, isPySpace c = false) →
      splitWsAux cs acc = if (acc ++ cs).isEmpty then [] else [acc ++ cs] := by
  induction cs with
  | nil =>
    intro acc h
    simp [splitWsAux]
  | cons a cs ih =>
    intro acc h
    have ha : isPySpace a = false := h a (by simp)
    simp only [splitWsAux, ha, Bool.false_eq_true, if_false]
    rw [ih (acc ++ [a]) (fun c hc => h c (by simp [hc]))]
    simp

theorem splitWordCore_all_punct (w : List Char) :
    (∀ c ∈ w, isPunct c = true) →
      splitWordCore w [] = (w.map (fun c => [[], [c]])).flatten := by
  induction w with
  | nil =>
    intro _
    simp [splitWordCore]
  | cons a cs ih =>
    intro h
    have ha : isPunct a = true := h a (by simp)
    simp only [splitWordCore, ha, if_true, List.map_cons, List.flatten_cons]
    rw [ih (fun c hc => h c (by simp [hc]))]
    simp

/-- Claim C1, amended: the word-token emitted before a punctuation
character is not guarded for non-emptiness, so every non-empty word
consisting entirely of punctuation characters tokenizes to two tokens
per punctuation character — an empty word-token followed by the
punctuation character itself as its own token, in order; in particular
`tokenize p = ["", p]` for every single punctuation character `p`. -/
theorem C1_amended (w : List Char) (hne : w ≠ [])
    (hp : ∀ c ∈ w, isPunct c = true) :
    tokenize w = (w.map (fun c => [[], [c]])).flatten := by
  have hs : ∀ c ∈ w, isPySpace c = false := fun c hc => isPunct_not_pySpace (hp c hc)
  have h1 : splitWs w = [w] := by
    rw [splitWs, splitWsAux_no_space_eq w [] hs]
    simp [hne]
  rw [tokenize_eq_core, h1]
  simp [splitWordCore_all_punct w hp]

theorem C1_amended_witness :
    tokenize ("...".toList) = (("...".toList).map (fun c => [[], [c]])).flatten :=
  C1_amended ("...".toList) (by decide) (by decide)

/-- Claim C9: tokenization is deterministic: the token sequence is a pure
function of the input character sequence alone (the embedding of
`_split_word` and `str.split` involves no state, locale or time). -/
theorem C9_deterministic (t u : List Char) (h : t = u) : tokenize t = tokenize u := by
  rw [h]

theorem C9_deterministic_witness :
    tokenize ("a b.".toList) = tokenize ("a b.".toList) :=
  C9_deterministic ("a b.".toList) ("a b.".toList) rfl

/-- Claim C10: `_convert_text_to_vert` is length- and order-preserving:
one document per raw text, and the document at position `k` is exactly
the conversion of the raw text at position `k`. -/
theorem C10_convert_is_map (raw_texts : List (List Char)) :
    (convert_text_to_vert raw_texts).length = raw_texts.length ∧
    ∀ k (h : k < raw_texts.length) (h2 : k < (convert_text_to_vert raw_texts).length),
      (convert_text_to_vert raw_texts).get ⟨k, h2⟩ =
        ((splitWs (raw_texts.get ⟨k, h⟩)).map split_word).flatten := by
  constructor
  · simp [convert_text_to_vert]
  · intro k h h2
    simp [convert_text_to_vert]

theorem C10_convert_is_map_witness :
    (convert_text_to_vert ["a!".toList]).get ⟨0, by decide⟩ =
      ((splitWs ("a!".toList)).map split_word).flatten :=
  (C10_convert_is_map ["a!".toList]).2 0 (by decide) (by decide)

mutual
/-- A file-system node as `_fetch_file_paths` distinguishes them:
a regular file (`os.path.isfile`) or a directory (`os.path.isdir`)
with its listed entries. -/
inductive FSTree : Type
  | file : FSTree
  | dir : FSEntries → FSTree
/-- Directory entries: filename/node pairs in `os.listdir` order. -/
inductive FSEntries : Type
  | nil : FSEntries
  | cons : String → FSTree → FSEntries → FSEntries
end

mutual
/-- The file and directory branches of `_fetch_file_paths`, on an
existing node:  a file yields the one-element list of its path; a
directory yields the concatenated recursion over its entries. -/
def fetchTree : String → FSTree → List String
  | source_path, FSTree.file => [source_path]
  | source_path, FSTree.dir entries => fetchEntries source_path entries
/-- The loop over `os.listdir`: the recursive call
`_fetch_file_paths(source_path + "/" + filename)` on each listed entry
(which exists, so it resolves to its node), results concatenated with
`all_file_paths.extend`. -/
def fetchEntries : String → FSEntries → List String
  | _, FSEntries.nil => []
  | source_path, FSEntries.cons name t rest =>
      fetchTree (source_path ++ "/" ++ name) t ++ fetchEntries source_path rest
end

/-- Embeds `_fetch_file_paths`.  The second argument is what the given
`source_path` resolves to: `some` an existing node, or `none` when the
path is neither an existing file nor an existing directory — the
source's final `else` branch, which returns the empty list. -/
def fetch_file_paths (source_path : String) : Option FSTree → List String
  | some t => fetchTree source_path t
  | none => []

/-- Claim C2, counterexample: for a source path that resolves to neither
an existing file nor an existing directory, `_fetch_file_paths` returns
the empty list — the silent empty result the claim rules out; no
`InvalidSourceError` (or any error path) exists in the code. -/
theorem C2_counterexample : fetch_file_paths "/no/such/path" none = [] := by
  rfl

/-- Claim C2, amended: for every source path that names neither an
existing file nor an existing directory, the loader returns an empty
list of file paths instead of failing. -/
theorem C2_amended (source_path : String) : fetch_file_paths source_path none = [] := by
  rfl

theorem splitWsAux_no_space (cs : List Char) :
    ∀ acc, (∀ c ∈ acc, isPySpace c = false) →
      ∀ w ∈ splitWsAux cs acc, ∀ c ∈ w, isPySpace c = false := by
  induction cs with
  | nil =>
    intro acc hacc w hw
    simp only [splitWsAux] at hw
    by_cases h : acc.isEmpty
    · simp [h] at hw
    · simp [h] at hw
      subst hw
      exact hacc
  | cons c cs ih =>
    intro acc hacc w hw
    simp only [splitWsAux] at hw
    by_cases h : isPySpace c
    · by_cases h2 : acc.isEmpty
      · simp [h, h2] at hw
        exact ih [] (by simp) w hw
      · simp [h, h2] at hw
        rcases hw with rfl | hw
        · exact hacc
        · exact ih [] (by simp) w hw
    · simp [h] at hw
      refine ih (acc ++ [c]) ?_ w hw
      intro d hd
      rcases List.mem_append.mp hd with hd | hd
      · exact hacc d hd
      · simp at hd
        subst hd
        simpa using h

theorem splitWordCore_chars (cs : List Char) :
    ∀ pending tok, tok ∈ splitWordCore cs pending → ∀ c ∈ tok, c ∈ pending ∨ c ∈ cs := by
  induction cs with
  | nil =>
    intro pending tok htok c hc
    simp only [splitWordCore] at htok
    by_cases h : pending.isEmpty
    · simp [h] at htok
    · simp [h] at htok
      subst htok
      exact Or.inl hc
  | cons a cs ih =>
    intro pending tok htok c hc
    simp only [splitWordCore] at htok
    by_cases h : isPunct a
    · simp [h] at htok
      rcases htok with rfl | rfl | htok
      · exact Or.inl hc
      · simp at hc
        subst hc
        simp
      · rcases ih [] tok htok c hc with h2 | h2
        · simp at h2
        · right
          simp [h2]
    · simp [h] at htok
      rcases ih (pending ++ [a]) tok htok c hc with h2 | h2
      · rcases List.mem_append.mp h2 with h3 | h3
        · exact Or.inl h3
        · simp at h3
          subst h3
          simp
      · right
        simp [h2]

/-- Claim C3: no token produced by the tokenizer contains a whitespace
character, in particular no embedded newline. -/
theorem C3_no_whitespace (t : List Char) (tok : List Char) (c : Char)
    (htok : tok ∈ tokenize t) (hc : c ∈ tok) :
    isPySpace c = false ∧ c ≠ Char.ofNat 10 := by
  rw [tokenize_eq_core] at htok
  rcases List.mem_flatten.mp htok with ⟨l, hl, htokl⟩
  rcases List.mem_map.mp hl with ⟨w, hw, rfl⟩
  have hcw : c ∈ w := by
    rcases splitWordCore_chars w [] tok htokl c hc with h | h
    · simp at h
    · exact h
  have hns : isPySpace c = false :=
    splitWsAux_no_space t [] (by simp) w (by simpa [splitWs] using hw) c hcw
  refine ⟨hns, ?_⟩
  intro hEq
  subst hEq
  exact absurd hns (by decide)

theorem C3_no_whitespace_witness :
    isPySpace (Char.ofNat 97) = false ∧ Char.ofNat 97 ≠ Char.ofNat 10 :=
  C3_no_whitespace ("a b".toList) ("a".toList) (Char.ofNat 97) (by decide) (by decide)

theorem splitWsAux_flatten (cs : List Char) :
    ∀ acc, (splitWsAux cs acc).flatten = acc ++ cs.filter (fun c => !(isPySpace c)) := by
  induction cs with
  | nil =>
    intro acc
    simp only [splitWsAux]
    by_cases h : acc.isEmpty
    · simp [List.isEmpty_iff.mp h]
    · simp [h]
  | cons c cs ih =>
    intro acc
    simp only [splitWsAux]
    by_cases h : isPySpace c
    · by_cases h2 : acc.isEmpty
      · simp [h, h2, ih, List.isEmpty_iff.mp h2, List.filter_cons]
      · simp [h, h2, ih, List.filter_cons]
    · simp [h, ih, List.filter_cons]

theorem splitWordCore_flatten (cs : List Char) :
    ∀ pending, (splitWordCore cs pending).flatten = pending ++ cs := by
  induction cs with
  | nil =>
    intro pending
    simp only [splitWordCore]
    by_cases h : pending.isEmpty
    · simp [List.isEmpty_iff.mp h]
    · simp [h]
  | cons a cs ih =>
    intro pending
    simp only [splitWordCore]
    by_cases h : isPunct a
    · simp [h, ih]
    · simp [h, ih]

theorem core_map_flatten (ws : List (List Char)) :
    ((ws.map (fun w => splitWordCore w [])).flatten).flatten = ws.flatten := by
  induction ws with
  | nil => simp
  | cons w ws ih =>
    simp only [List.map_cons, List.flatten_cons, List.flatten_append, ih,
      splitWordCore_flatten]
    simp

theorem splitWordCore_token_shape (cs : List Char) :
    ∀ pending, (∀ c ∈ pending, isPunct c = false) →
      ∀ tok ∈ splitWordCore cs pending,
        (∀ c ∈ tok, isPunct c = false) ∨ ∃ c, isPunct c = true ∧ tok = [c] := by
  induction cs with
  | nil =>
    intro pending hp tok htok
    simp only [splitWordCore] at htok
    by_cases h : pending.isEmpty
    · simp [h] at htok
    · simp [h] at htok
      subst htok
      exact Or.inl hp
  | cons a cs ih =>
    intro pending hp tok htok
    simp only [splitWordCore] at htok
    by_cases h : isPunct a
    · simp [h] at htok
      rcases htok with rfl | rfl | htok
      · exact Or.inl hp
      · exact Or.inr ⟨a, h, rfl⟩
      · exact ih [] (by simp) tok htok
    · simp [h] at htok
      refine ih (pending ++ [a]) ?_ tok htok
      intro d hd
      rcases List.mem_append.mp hd with hd | hd
      · exact hp d hd
      · simp at hd
        subst hd
        simpa using h

/-- Claim C4: concatenating the tokens of a document reconstructs exactly
the non-whitespace content of its source text, in order, and every token
is either punctuation-free (a word-token) or a standalone single
punctuation character. -/
theorem C4_reconstruction (t : List Char) :
    (tokenize t).flatten = t.filter (fun c => !(isPySpace c)) ∧
    ∀ tok ∈ tokenize t,
      (∀ c ∈ tok, isPunct c = false) ∨ ∃ c, isPunct c = true ∧ tok = [c] := by
  constructor
  · rw [tokenize_eq_core, core_map_flatten]
    simpa [splitWs] using splitWsAux_flatten t []
  · intro tok htok
    rw [tokenize_eq_core] at htok
    rcases List.mem_flatten.mp htok with ⟨l, hl, htokl⟩
    rcases List.mem_map.mp hl with ⟨w, _, rfl⟩
    exact splitWordCore_token_shape w [] (by simp) tok htokl

theorem C4_reconstruction_witness :
    (tokenize ("a! b".toList)).flatten =
      ("a! b".toList).filter (fun c => !(isPySpace c)) ∧
    ((∀ c ∈ ("!".toList : List Char), isPunct c = false) ∨
      ∃ c, isPunct c = true ∧ ("!".toList : List Char) = [c]) :=
  ⟨(C4_reconstruction ("a! b".toList)).1,
   (C4_reconstruction ("a! b".toList)).2 ("!".toList) (by decide)⟩

theorem splitWsAux_ne_nil (cs : List Char) :
    ∀ acc, ∀ w ∈ splitWsAux cs acc, w ≠ [] := by
  induction cs with
  | nil =>
    intro acc w hw
    simp only [splitWsAux] at hw
    by_cases h : acc.isEmpty
    · simp [h] at hw
    · simp [h] at hw
      subst hw
      simpa [List.isEmpty_iff] using h
  | cons c cs ih =>
    intro acc w hw
    simp only [splitWsAux] at hw
    by_cases h : isPySpace c
    · by_cases h2 : acc.isEmpty
      · simp [h, h2] at hw
        exact ih [] w hw
      · simp [h, h2] at hw
        rcases hw with rfl | hw
        · simpa [List.isEmpty_iff] using h2
        · exact ih [] w hw
    · simp [h] at hw
      exact ih (acc ++ [c]) w hw

theorem splitWsAux_mem_chars (cs : List Char) :
    ∀ acc w c, w ∈ splitWsAux cs acc → c ∈ w → c ∈ acc ∨ c ∈ cs := by
  induction cs with
  | nil =>
    intro acc w c hw hc
    simp only [splitWsAux] at hw
    by_cases h : acc.isEmpty
    · simp [h] at hw
    · simp [h] at hw
      subst hw
      exact Or.inl hc
  | cons a cs ih =>
    intro acc w c hw hc
    simp only [splitWsAux] at hw
    by_cases h : isPySpace a
    · by_cases h2 : acc.isEmpty
      · simp [h, h2] at hw
        rcases ih [] w c hw hc with h3 | h3
        · simp at h3
        · right
          simp [h3]
      · simp [h, h2] at hw
        rcases hw with rfl | hw
        · exact Or.inl hc
        · rcases ih [] w c hw hc with h3 | h3
          · simp at h3
          · right
            simp [h3]
    · simp [h] at hw
      rcases ih (acc ++ [a]) w c hw hc with h3 | h3
      · rcases List.mem_append.mp h3 with h4 | h4
        · exact Or.inl h4
        · simp at h4
          subst h4
          simp
      · right
        simp [h3]

theorem splitWordCore_no_punct (cs : List Char) :
    ∀ pending, (∀ c ∈ cs, isPunct c = false) →
      splitWordCore cs pending =
        if (pending ++ cs).isEmpty then [] else [pending ++ cs] := by
  induction cs with
  | nil =>
    intro pending h
    simp [splitWordCore]
  | cons a cs ih =>
    intro pending h
    have ha : isPunct a = false := h a (by simp)
    simp only [splitWordCore, ha, Bool.false_eq_true, if_false]
    rw [ih (pending ++ [a]) (fun c hc => h c (by simp [hc]))]
    simp

theorem flatten_map_singleton {α : Type} (l : List α) :
    (l.map (fun w => [w])).flatten = l := by
  induction l with
  | nil => simp
  | cons a l ih => simp [ih]

/-- Claim C6: for a text with no punctuation characters, the token
sequence is exactly the whitespace-split word sequence of the text. -/
theorem C6_no_punct_tokenize (t : List Char) (h : ∀ c ∈ t, isPunct c = false) :
    tokenize t = splitWs t := by
  rw [tokenize_eq_core]
  have hone : ∀ w ∈ splitWs t, splitWordCore w [] = [w] := by
    intro w hw
    have hwc : ∀ c ∈ w, isPunct c = false := by
      intro c hc
      rcases splitWsAux_mem_chars t [] w c (by simpa [splitWs] using hw) hc with h2 | h2
      · simp at h2
      · exact h c h2
    have hne : w ≠ [] := splitWsAux_ne_nil t [] w (by simpa [splitWs] using hw)
    rw [splitWordCore_no_punct w [] hwc]
    simp [hne]
  rw [List.map_congr_left hone]
  exact flatten_map_singleton (splitWs t)

theorem C6_no_punct_tokenize_witness :
    tokenize ("ab cd".toList) = splitWs ("ab cd".toList) :=
  C6_no_punct_tokenize ("ab cd".toList) (by decide)

/-- The header line `_write_vert` writes for the document at 0-based
position `i` (Python `enumerate`): the numeral `i + 1` substituted into
the f-string, newline included. -/
def docOpenLine (i : Nat) : List Char :=
  "<doc n=\"".toList ++ (Nat.repr (i + 1)).toList ++ "\">".toList ++ [Char.ofNat 10]

/-- The closing line `_write_vert` writes after each document. -/
def docCloseLine : List Char := "</doc>".toList ++ [Char.ofNat 10]

/-- The loop of `_write_vert`: header line for position `i`, the
document's entries verbatim (`f.writelines(doc)` — each entry already
ends in the newline `_split_word` appended), closing line, then the rest
with the counter advanced. -/
def writeVertFrom : Nat → List (List (List Char)) → List Char
  | _, [] => []
  | i, doc :: docs =>
      docOpenLine i ++ doc.flatten ++ docCloseLine ++ writeVertFrom (i + 1) docs

/-- Embeds `_write_vert`: the full content written to the `source` file. -/
def write_vert (documents : List (List (List Char))) : List Char :=
  writeVertFrom 0 documents

/-- Renders a list of lines, each terminated by a newline. -/
def unlines (ls : List (List Char)) : List Char :=
  (ls.map (fun l => l ++ [Char.ofNat 10])).flatten

/-- Modelled from the spec's serializer format: for the document at
0-based position `i` (1-based index `i + 1`), the line
`<doc n="i+1">`, then each token of the document on its own line in
order, then a closing line `</doc>`. -/
def vertLinesFrom : Nat → List (List (List Char)) → List (List Char)
  | _, [] => []
  | i, doc :: docs =>
      (("<doc n=\"".toList ++ (Nat.repr (i + 1)).toList ++ "\">".toList) ::
        doc ++ ["</doc>".toList]) ++ vertLinesFrom (i + 1) docs

/-- Modelled from the spec: the expected line sequence of the serialized
corpus, 1-based document indices. -/
def vertLines (corpus : List (List (List Char))) : List (List Char) :=
  vertLinesFrom 0 corpus

theorem unlines_append (a b : List (List Char)) :
    unlines (a ++ b) = unlines a ++ unlines b := by
  simp [unlines]

theorem writeVertFrom_eq_unlines (docs : List (List (List Char))) :
    ∀ i, writeVertFrom i (docs.map (List.map (fun tok => tok ++ [Char.ofNat 10]))) =
      unlines (vertLinesFrom i docs) := by
  induction docs with
  | nil =>
    intro i
    simp [writeVertFrom, vertLinesFrom, unlines]
  | cons doc docs ih =>
    intro i
    simp only [List.map_cons, writeVertFrom, vertLinesFrom, unlines_append, ih]
    simp [unlines, docOpenLine, docCloseLine]

/-- Claim C5: the serializer emits, for the document at 1-based index
`i`, a `<doc n="i">` line, each token on its own line in order, and a
closing `</doc>` line; for the two documents `["Hi"]` and `["Bye","!"]`
the output is exactly the six lines of the claim with a final newline
and nothing after. -/
theorem C5_write_vert (corpus : List (List (List Char))) :
    write_vert (corpus.map (List.map (fun tok => tok ++ [Char.ofNat 10]))) =
      unlines (vertLines corpus) ∧
    write_vert ([["Hi".toList], ["Bye".toList, "!".toList]].map
        (List.map (fun tok => tok ++ [Char.ofNat 10]))) =
      ("<doc n=\"1\">\nHi\n</doc>\n<doc n=\"2\">\nBye\n!\n</doc>\n").toList := by
  constructor
  · exact writeVertFrom_eq_unlines corpus 0
  · rfl

/-- Python's `str.lower()` on the Latin-1 range: the ASCII uppercase
letters (65-90) and the Latin-1 uppercase letters (192-222 except the
multiplication sign 215) map 32 code points up; everything else is
unchanged. -/
def lowerChar (c : Char) : Char :=
  if (65 ≤ c.toNat && c.toNat ≤ 90) ||
     (192 ≤ c.toNat && c.toNat ≤ 222 && !(c.toNat = 215 : Bool)) then
    Char.ofNat (c.toNat + 32)
  else
    c

/-- `corpus_name.lower()`. -/
def lowerStr (s : List Char) : List Char := s.map lowerChar

/-- The trailing-slash normalization at the top of
`_create_corpus_directory`. -/
def withSlash (p : List Char) : List Char :=
  if p.getLast? = some (Char.ofNat 47) then p else p ++ [Char.ofNat 47]

/-- Embeds `_create_corpus_directory` over an abstract file system,
modelled as the list of existing paths: `os.path.exists` is membership,
`os.mkdir` prepends the created path and raises `FileExistsError` when
the path is already present, and `sys.exit(-1)` is `Except.error (-1)`.
Returns the file system after the call and the outcome (the
`vertical_path` on success). -/
def create_corpus_directory (fs : List (List Char))
    (nosketch_docker_path corpus_name : List Char) :
    List (List Char) × Except Int (List Char) :=
  let path := withSlash nosketch_docker_path
  if fs.contains path then
    let corpus_path := path ++ "corpora/".toList ++ lowerStr corpus_name
    if fs.contains corpus_path then
      (fs, Except.error (-1))
    else
      let vertical_path := corpus_path ++ "/vertical".toList
      (vertical_path :: corpus_path :: fs, Except.ok vertical_path)
  else
    (fs, Except.error (-1))

/-- Claim C8: creating the corpus layout fails with `sys.exit(-1)` — not
silently continuing — whenever the output root does not exist or the
corpus directory already exists, and in both failure cases the file
system is left unchanged (in particular the existing directory's
contents are not modified). -/
theorem C8_create_corpus_directory_fails (fs : List (List Char))
    (p name : List Char)
    (h : fs.contains (withSlash p) = false ∨
         fs.contains (withSlash p ++ "corpora/".toList ++ lowerStr name) = true) :
    create_corpus_directory fs p name = (fs, Except.error (-1)) := by
  unfold create_corpus_directory
  dsimp only
  split_ifs with h1 h2
  · rfl
  · exfalso
    rcases h with h | h
    · rw [h1] at h
      exact absurd h (by decide)
    · exact h2 h
  · rfl

theorem C8_create_corpus_directory_fails_witness :
    create_corpus_directory ["/n/".toList, "/n/corpora/my".toList]
        ("/n".toList) ("My".toList) =
      (["/n/".toList, "/n/corpora/my".toList], Except.error (-1)) :=
  C8_create_corpus_directory_fails ["/n/".toList, "/n/corpora/my".toList]
    ("/n".toList) ("My".toList) (Or.inr (by decide))

end Text2Vert
